import Mathlib

/-!
Shallow embedding of src/main.py (a reverse-Markov-chain rhyming poem
generator) and proofs about it.

Python strings are modelled as lists of characters; Python dicts (which
preserve insertion order) are modelled as association lists with the
dict update discipline: assignment updates an existing key in place and
appends a fresh key at the end.  Python sets are modelled as duplicate-free
lists (insertion adds an element only when absent).  Code that can raise
an exception is modelled in Option / Except.
-/

set_option autoImplicit false

namespace MarkovPoems

/-- A Python string, as a list of characters. -/
abbrev Str := List Char

/-- The apostrophe character (written by code to keep the source ASCII-clean). -/
def apos : Char := Char.ofNat 39

/-- ASCII lower-casing of one character; agrees with Python str.lower on the
ASCII range (the corpus and all claim inputs are ASCII). -/
def asciiLower (c : Char) : Char :=
  if 'A' ≤ c ∧ c ≤ 'Z' then Char.ofNat (c.toNat + 32) else c

/-- Lower-case a word, character by character (Python word.lower()). -/
def lowerStr (w : Str) : Str := w.map asciiLower

/-- Python str.isspace characters relevant to str.split (ASCII whitespace). -/
def pySpace (c : Char) : Bool :=
  c = ' ' || c = '\t' || c = '\n' || c = '\r' || c = Char.ofNat 11 || c = Char.ofNat 12

/-- Helper for splitWs: accumulates the current (reversed) token. -/
def splitWsAux : Str → Str → List Str
  | [], cur => if cur = [] then [] else [cur.reverse]
  | c :: rest, cur =>
    if pySpace c then
      if cur = [] then splitWsAux rest [] else cur.reverse :: splitWsAux rest []
    else splitWsAux rest (c :: cur)

/-- Python text.split() with no separator: split on whitespace runs,
discarding empty pieces. -/
def splitWs (s : Str) : List Str := splitWsAux s []

/-- Helper for splitOnNl. -/
def splitOnNlAux : Str → Str → List Str
  | [], cur => [cur.reverse]
  | c :: rest, cur =>
    if c = '\n' then cur.reverse :: splitOnNlAux rest []
    else splitOnNlAux rest (c :: cur)

/-- Python text.split(newline): split on each newline, keeping empty pieces. -/
def splitOnNl (s : Str) : List Str := splitOnNlAux s []

/-! ## parse_rhyme_scheme (src/main.py lines 30-45) -/

/-- Python set insertion: add the element only when it is not yet present
(break_lines.add(line_num)). -/
def insertNew (l : List Nat) (x : Nat) : List Nat :=
  if x ∈ l then l else l ++ [x]

/-- rhyme_scheme.setdefault(char, []).append(line_num): append line number n
to the group of label c, creating the group at the end when absent. -/
def appendToGroup : List (Char × List Nat) → Char → Nat → List (Char × List Nat)
  | [], c, n => [(c, [n])]
  | (c', g) :: rest, c, n =>
    if c' = c then (c', g ++ [n]) :: rest
    else (c', g) :: appendToGroup rest c n

/-- The scanning loop of parse_rhyme_scheme: state is (line_num,
rhyme_scheme groups, break_lines). -/
def parseLoop : List Char → Nat → List (Char × List Nat) → List Nat →
    Nat × List (Char × List Nat) × List Nat
  | [], n, groups, breaks => (n, groups, breaks)
  | c :: rest, n, groups, breaks =>
    if c = '/' then parseLoop rest n groups (insertNew breaks n)
    else parseLoop rest (n + 1) (appendToGroup groups c n) breaks

/-- The groups accumulated by the scan (the local rhyme_scheme dict). -/
def parseGroups (s : Str) : List (Char × List Nat) :=
  (parseLoop s 0 [] []).2.1

/-- zip(rhyme_group, rhyme_group[1:]). -/
def pairsOf (g : List Nat) : List (Nat × Nat) := g.zip g.tail

/-- Python dict assignment d[k] = v on an integer-keyed association list:
update in place when the key exists, append otherwise. -/
def setKey {α : Type} : List (Nat × α) → Nat → α → List (Nat × α)
  | [], k, v => [(k, v)]
  | (k', v') :: rest, k, v =>
    if k' = k then (k, v) :: rest
    else (k', v') :: setKey rest k v

/-- Lookup in an integer-keyed association list (Python dict .get). -/
def natLookup {α : Type} : List (Nat × α) → Nat → Option α
  | [], _ => none
  | (k', v) :: rest, k => if k' = k then some v else natLookup rest k

/-- The second loop of parse_rhyme_scheme, building rhyme_map from the
groups. -/
def buildRhymeMap (groups : List (Char × List Nat)) : List (Nat × Nat) :=
  groups.foldl (fun rm cg => (pairsOf cg.2).foldl (fun rm p => setKey rm p.1 p.2) rm) []

/-- parse_rhyme_scheme(scheme): returns (line_num, rhyme_map, break_lines). -/
def parse_rhyme_scheme (s : Str) : Nat × List (Nat × Nat) × List Nat :=
  let r := parseLoop s 0 [] []
  (r.1, buildRhymeMap r.2.1, r.2.2)

/-! ## PoemSettings (src/main.py lines 13-27) -/

/-- The PoemSettings named tuple. -/
structure PoemSettings where
  line_lengths : List Nat
  break_lines : List Nat
  rhyme_map : List (Nat × Nat)
  deriving DecidableEq

/-- PoemSettings.from_rhyme_scheme: an int line length is expanded to one
entry per line; an explicit sequence is used as given (the Python code
performs no length validation). -/
def PoemSettings.from_rhyme_scheme (scheme : Str) (line_lengths : Sum Nat (List Nat)) :
    PoemSettings :=
  let r := parse_rhyme_scheme scheme
  match line_lengths with
  | .inl k => ⟨List.replicate r.1 k, r.2.2, r.2.1⟩
  | .inr l => ⟨l, r.2.2, r.2.1⟩

example : parse_rhyme_scheme ("aaaa/bbbb".toList) =
    (8, [(0, 1), (1, 2), (2, 3), (4, 5), (5, 6), (6, 7)], [4]) := by decide

/-! ## ReverseMarkovChain (src/main.py lines 48-130) -/

/-- An inner entry of the chain: preceding word mapped to its count. -/
abbrev InnerMap := List (Str × Nat)

/-- chaindict: word mapped to its predecessor counts, in insertion order. -/
abbrev Chain := List (Str × InnerMap)

/-- chain[word].setdefault(prev_word, 0); chain[word][prev_word] += 1. -/
def bumpInner : InnerMap → Str → InnerMap
  | [], p => [(p, 1)]
  | (p', c) :: rest, p =>
    if p' = p then (p', c + 1) :: rest
    else (p', c) :: bumpInner rest p

/-- chain.setdefault(word, {}) followed by the inner increment for
prev_word. -/
def bump : Chain → Str → Str → Chain
  | [], w, p => [(w, [(p, 1)])]
  | (w', m) :: rest, w, p =>
    if w' = w then (w', bumpInner m p) :: rest
    else (w', m) :: bump rest w p

/-- ReverseMarkovChain.generate_chain: for each text, lower-case the
whitespace-split words and, for each adjacent pair (prev_word, word),
increment chain[word][prev_word]. -/
def generate_chain (texts : List Str) : Chain :=
  texts.foldl
    (fun chain text =>
      let words := (splitWs text).map lowerStr
      (words.zip words.tail).foldl (fun ch pw => bump ch pw.2 pw.1) chain)
    []

/-- ReverseMarkovChain.collect_endings: the last whitespace token of every
non-empty line, lower-cased.  A non-empty line consisting only of
whitespace makes the Python expression line.rsplit(maxsplit=1)[-1] raise
IndexError, modelled as none. -/
def collect_endings (texts : List Str) : Option (List Str) :=
  texts.foldlM
    (fun acc text =>
      (splitOnNl text).foldlM
        (fun acc line =>
          if line = [] then some acc
          else
            match (splitWs line).getLast? with
            | none => none
            | some t => some (acc ++ [lowerStr t]))
        acc)
    []

/-- Sum of the weights of an inner map (random.choices uses the counts as
cumulative weights). -/
def innerTotal (m : InnerMap) : Nat := (m.map Prod.snd).sum

/-- Walk the cumulative weights: pick the first key whose cumulative range
contains r. -/
def pickWeighted : InnerMap → Nat → Option Str
  | [], _ => none
  | (w, c) :: rest, r => if r < c then some w else pickWeighted rest (r - c)

/-- ReverseMarkovChain.choose_value: random.choices(keys, weights)[0],
driven by a random number r.  Raises (none) when the total weight is
zero, as Python does. -/
def choose_value (m : InnerMap) (r : Nat) : Option Str :=
  if innerTotal m = 0 then none else pickWeighted m (r % innerTotal m)

/-- random.choice(lst), driven by a random number r; raises (none) on an
empty list. -/
def pyChoice {α : Type} (l : List α) (r : Nat) : Option α :=
  l.get? (r % l.length)

/-- Association-list lookup (Python dict membership / indexing). -/
def alLookup {α : Type} (l : List (Str × α)) (k : Str) : Option α :=
  match l with
  | [] => none
  | (k', v) :: rest => if k' = k then some v else alLookup rest k

/-- The loop of generate_sentence: n iterations remain; each appends the
current word, then computes the next current word (falling back to a
random chaindict key when the current word has no predecessors).  rnd
supplies one random number per iteration. -/
def sentenceLoop (chain : Chain) (rnd : Nat → Nat) :
    Nat → Str → List Str → Option (List Str)
  | 0, _, sentence => some sentence.reverse
  | n + 1, curr, sentence =>
    let sentence := sentence ++ [curr]
    match alLookup chain curr with
    | none =>
      match pyChoice (chain.map Prod.fst) (rnd (n + 1)) with
      | none => none
      | some w => sentenceLoop chain rnd n w sentence
    | some possible =>
      match choose_value possible (rnd (n + 1)) with
      | none => none
      | some w => sentenceLoop chain rnd n w sentence

/-- ReverseMarkovChain.generate_sentence(end, length): build backwards from
the end word, then reverse. -/
def generate_sentence (chain : Chain) (rnd : Nat → Nat) (endWord : Str)
    (length : Nat) : Option (List Str) :=
  sentenceLoop chain rnd length endWord []

/-! ## MarkovPoem.clean_for_rhyme (src/main.py lines 171-194) -/

/-- Python string.punctuation. -/
def punctuation : List Char :=
  ['!', '"', '#', '$', '%', '&', apos, '(', ')', '*', '+', ',', '-', '.', '/',
   ':', ';', '<', '=', '>', '?', '@', '[', '\\', ']', '^', '_', Char.ofNat 96,
   Char.ofNat 123, '|', Char.ofNat 125, '~']

/-- Python string.ascii_letters: the lower-case then upper-case ASCII
alphabet. -/
def asciiLetters : List Char :=
  (List.range 26).map (fun i => Char.ofNat (97 + i)) ++
    (List.range 26).map (fun i => Char.ofNat (65 + i))

/-- Python word.strip(chars): remove the longest run of characters from
chars at either end. -/
def pyStrip (chars : List Char) (s : Str) : Str :=
  ((s.dropWhile (· ∈ chars)).reverse.dropWhile (· ∈ chars)).reverse

/-- Python word.removesuffix(suffix). -/
def removeSuffix (suffix s : Str) : Str :=
  if suffix.isSuffixOf s then s.take (s.length - suffix.length) else s

/-- Recursion on explicit fuel so that the definition is structural and
computes inside the kernel; with fuel at least the length of the string
the fuel is never exhausted, because each step consumes at least one
character of a non-empty pattern. -/
def replaceAllAux (old new : Str) : Nat → Str → Str
  | _, [] => []
  | 0, s => s
  | fuel + 1, c :: rest =>
    if old ≠ [] ∧ old.isPrefixOf (c :: rest) then
      new ++ replaceAllAux old new fuel ((c :: rest).drop old.length)
    else
      c :: replaceAllAux old new fuel rest

/-- Python s.replace(old, new): left-to-right, non-overlapping replacement
of every occurrence.  All call sites use a non-empty pattern, so only
that case is modelled. -/
def replaceAll (old new : Str) (s : Str) : Str :=
  replaceAllAux old new s.length s

/-- MarkovPoem.clean_for_rhyme: strip surrounding punctuation, drop an
archaic -st contraction, expand -d / -n contractions, expand the o-e and
e-e elisions, and keep only ASCII letters. -/
def clean_for_rhyme (word : Str) : Str :=
  let w1 := pyStrip punctuation word
  let w2 := removeSuffix [apos, 's', 't'] w1
  let w3 :=
    if ([apos, 'd'].isSuffixOf w2) || ([apos, 'n'].isSuffixOf w2) then
      match w2.getLast? with
      | some c => w2.take (w2.length - 2) ++ ['e', c]
      | none => w2
    else w2
  let w4 := replaceAll ['o', apos, 'e'] ['o', 'v', 'e'] w3
  let w5 := replaceAll ['e', apos, 'e'] ['e', 'v', 'e'] w4
  w5.filter (· ∈ asciiLetters)

/-! ## MarkovPoem.get_rhyme (src/main.py lines 157-169) -/

/-- The two datamuse relation queries, in the order the code issues them. -/
inductive Rel | rhy | nry
  deriving DecidableEq

/-- The acceptance test of a rhyme candidate: it is a key of chaindict and
has not been used yet. -/
def rhymeOk (chain : Chain) (used : List Str) (c : Str) : Bool :=
  (alLookup chain c).isSome && !(used.contains c)

/-- The url loop of get_rhyme: issue each query in turn; a service failure
propagates (the Python code has no try/except around requests.get); the
first accepted candidate is returned; otherwise continue with the next
query and finally return none. -/
def getRhymeLoop {E : Type} (svc : Rel → Str → Except E (List Str)) (chain : Chain)
    (used : List Str) (w : Str) : List Rel → Except E (Option Str)
  | [] => .ok none
  | rel :: rest =>
    match svc rel w with
    | .error e => .error e
    | .ok cands =>
      match cands.find? (rhymeOk chain used) with
      | some c => .ok (some c)
      | none => getRhymeLoop svc chain used w rest

/-- MarkovPoem.get_rhyme(word): clean the word, then query strict rhymes
and near rhymes in that order. -/
def get_rhyme {E : Type} (svc : Rel → Str → Except E (List Str)) (chain : Chain)
    (used : List Str) (word : Str) : Except E (Option Str) :=
  getRhymeLoop svc chain used (clean_for_rhyme word) [Rel.rhy, Rel.nry]

/-! ## MarkovPoem.generate_poem (src/main.py lines 133-155) -/

/-- One yielded item of the poem generator: a blank stanza-break marker or
a line of words. -/
inductive PoemItem
  | blank
  | line (ws : List Str)
  deriving DecidableEq

/-- How a poem generation run can fail: a propagated rhyme-service error,
or an uncaught Python exception (empty-sequence random.choice or
indexing). -/
inductive GenErr (E : Type)
  | svc (e : E)
  | crash
  deriving DecidableEq

/-- Choice of a line's end word: rhymes.get(line_num) or
random.choice(self.chain.endings); the stored value falls through to the
random choice when it is None or the empty string. -/
def lineEnd (rhymes : List (Nat × Option Str)) (i : Nat) (endings : List Str)
    (r : Nat) : Option Str :=
  match natLookup rhymes i with
  | some (some w) => if w = [] then pyChoice endings r else some w
  | _ => pyChoice endings r

/-- The loop of MarkovPoem.generate_poem over enumerate(line_lengths),
threading the local rhymes dict and the used_rhymes instance field. -/
def poemLoop {E : Type} (chain : Chain) (endings : List Str) (breaks : List Nat)
    (rhymeMap : List (Nat × Nat)) (endRnd : Nat → Nat) (sentRnd : Nat → Nat → Nat)
    (svc : Rel → Str → Except E (List Str)) :
    Nat → List Nat → List (Nat × Option Str) → List Str →
    Except (GenErr E) (List PoemItem × List Str)
  | _, [], _, used => .ok ([], used)
  | i, len :: rest, rhymes, used =>
    let pre : List PoemItem := if i ∈ breaks then [.blank] else []
    match lineEnd rhymes i endings (endRnd i) with
    | none => .error .crash
    | some endWord =>
      let used' := used ++ [clean_for_rhyme endWord]
      match generate_sentence chain (sentRnd i) endWord len with
      | none => .error .crash
      | some line =>
        let step : Except (GenErr E) (List (Nat × Option Str)) :=
          match natLookup rhymeMap i with
          | none => .ok rhymes
          | some j =>
            match line.getLast? with
            | none => .error .crash
            | some lastWord =>
              match get_rhyme svc chain used' lastWord with
              | .error e => .error (.svc e)
              | .ok r => .ok (setKey rhymes j r)
        match step with
        | .error e => .error e
        | .ok rhymes' =>
          match poemLoop chain endings breaks rhymeMap endRnd sentRnd svc
              (i + 1) rest rhymes' used' with
          | .error e => .error e
          | .ok (items, usedF) => .ok (pre ++ PoemItem.line line :: items, usedF)

/-- MarkovPoem.generate_poem, fully consumed.  The used argument is the
value of the used_rhymes instance field when the call is made;
MarkovPoem.init sets it to [] once, at construction. -/
def generate_poem {E : Type} (chain : Chain) (endings : List Str)
    (settings : PoemSettings) (endRnd : Nat → Nat) (sentRnd : Nat → Nat → Nat)
    (svc : Rel → Str → Except E (List Str)) (used : List Str) :
    Except (GenErr E) (List PoemItem × List Str) :=
  poemLoop chain endings settings.break_lines settings.rhyme_map endRnd sentRnd svc
    0 settings.line_lengths [] used

/-! ## Helper lemmas -/

theorem parseLoop_lineCount (s : List Char) : ∀ (n : Nat)
    (groups : List (Char × List Nat)) (breaks : List Nat),
    (parseLoop s n groups breaks).1 = n + (s.filter (fun c => c ≠ '/')).length := by
  induction s with
  | nil => intro n groups breaks; simp [parseLoop]
  | cons c rest ih =>
    intro n groups breaks
    by_cases hc : c = '/'
    · simp [parseLoop, hc, ih]
    · simp [parseLoop, hc, ih]
      omega

theorem pyChoice_some {α : Type} (l : List α) (r : Nat) (h : l ≠ []) :
    ∃ x, pyChoice l r = some x := by
  have hlen : 0 < l.length := List.length_pos.mpr h
  have hlt : r % l.length < l.length := Nat.mod_lt r hlen
  exact ⟨l.get ⟨r % l.length, hlt⟩, List.get?_eq_get hlt⟩

theorem innerTotal_bumpInner (m : InnerMap) (p : Str) :
    innerTotal (bumpInner m p) = innerTotal m + 1 := by
  induction m with
  | nil => simp [bumpInner, innerTotal]
  | cons pc rest ih =>
    obtain ⟨p', c⟩ := pc
    by_cases hp : p' = p
    · simp [bumpInner, hp, innerTotal]
      omega
    · simp [bumpInner, hp, innerTotal] at ih ⊢
      omega

theorem bump_preserves_pos (ch : Chain) (w p : Str)
    (h : ∀ wm ∈ ch, 0 < innerTotal wm.2) :
    ∀ wm ∈ bump ch w p, 0 < innerTotal wm.2 := by
  induction ch with
  | nil =>
    intro wm hm
    simp [bump] at hm
    subst hm
    simp [innerTotal]
  | cons hd rest ih =>
    obtain ⟨w', m⟩ := hd
    intro wm hm
    by_cases hw : w' = w
    · simp [bump, hw] at hm
      rcases hm with hm | hm
      · subst hm
        simp [innerTotal_bumpInner]
      · exact h wm (List.mem_cons_of_mem _ hm)
    · simp only [bump, if_neg hw, List.mem_cons] at hm
      rcases hm with hm | hm
      · subst hm
        exact h (w', m) (List.mem_cons_self _ _)
      · exact ih (fun x hx => h x (List.mem_cons_of_mem _ hx)) wm hm

theorem foldl_bump_pos (ps : List (Str × Str)) (ch : Chain)
    (h : ∀ wm ∈ ch, 0 < innerTotal wm.2) :
    ∀ wm ∈ ps.foldl (fun ch pw => bump ch pw.2 pw.1) ch, 0 < innerTotal wm.2 := by
  induction ps generalizing ch with
  | nil => exact h
  | cons p rest ih =>
    exact ih (bump ch p.2 p.1) (bump_preserves_pos ch p.2 p.1 h)

theorem foldl_texts_pos (texts : List Str) (ch : Chain)
    (h : ∀ wm ∈ ch, 0 < innerTotal wm.2) :
    ∀ wm ∈ texts.foldl
        (fun chain text =>
          let words := (splitWs text).map lowerStr
          (words.zip words.tail).foldl (fun ch pw => bump ch pw.2 pw.1) chain)
        ch,
      0 < innerTotal wm.2 := by
  induction texts generalizing ch with
  | nil => exact h
  | cons t rest ih => exact ih _ (foldl_bump_pos _ ch h)

theorem generate_chain_pos (texts : List Str) :
    ∀ wm ∈ generate_chain texts, 0 < innerTotal wm.2 :=
  foldl_texts_pos texts [] (by simp)

theorem pickWeighted_some (m : InnerMap) (r : Nat) (h : r < innerTotal m) :
    ∃ w, pickWeighted m r = some w := by
  induction m generalizing r with
  | nil => simp [innerTotal] at h
  | cons pc rest ih =>
    obtain ⟨p, c⟩ := pc
    by_cases hr : r < c
    · exact ⟨p, by simp [pickWeighted, hr]⟩
    · have : r - c < innerTotal rest := by
        simp [innerTotal] at h ⊢
        omega
      obtain ⟨w, hw⟩ := ih (r - c) this
      exact ⟨w, by simp [pickWeighted, hr, hw]⟩

theorem choose_value_some (m : InnerMap) (r : Nat) (h : 0 < innerTotal m) :
    ∃ w, choose_value m r = some w := by
  have hne : innerTotal m ≠ 0 := Nat.pos_iff_ne_zero.mp h
  obtain ⟨w, hw⟩ := pickWeighted_some m (r % innerTotal m) (Nat.mod_lt r h)
  exact ⟨w, by simp [choose_value, hne, hw]⟩

theorem alLookup_mem {α : Type} (l : List (Str × α)) (k : Str) (v : α)
    (h : alLookup l k = some v) : (k, v) ∈ l := by
  induction l with
  | nil => simp [alLookup] at h
  | cons hd rest ih =>
    obtain ⟨k', v'⟩ := hd
    by_cases hk : k' = k
    · subst hk
      simp [alLookup] at h
      subst h
      exact List.mem_cons_self _ _
    · simp [alLookup, hk] at h
      exact List.mem_cons_of_mem _ (ih h)

theorem sentenceLoop_spec (chain : Chain) (hne : chain ≠ [])
    (hpos : ∀ wm ∈ chain, 0 < innerTotal wm.2) (rnd : Nat → Nat) :
    ∀ (n : Nat) (curr : Str) (acc : List Str),
      ∃ s, sentenceLoop chain rnd n curr acc = some ((acc ++ s).reverse) ∧
        s.length = n ∧ (0 < n → s.head? = some curr) := by
  intro n
  induction n with
  | zero =>
    intro curr acc
    exact ⟨[], by simp [sentenceLoop], rfl, by omega⟩
  | succ n ih =>
    intro curr acc
    cases hl : alLookup chain curr with
    | none =>
      have hkeys : chain.map Prod.fst ≠ [] := by
        intro hk
        exact hne (List.map_eq_nil_iff.mp hk)
      obtain ⟨w, hw⟩ := pyChoice_some (chain.map Prod.fst) (rnd (n + 1)) hkeys
      obtain ⟨s, hs, hlen, hhead⟩ := ih w (acc ++ [curr])
      refine ⟨curr :: s, ?_, by simp [hlen], by simp⟩
      simp only [sentenceLoop, hl, hw, hs]
      simp
    | some possible =>
      have hmem := alLookup_mem chain curr possible hl
      obtain ⟨w, hw⟩ := choose_value_some possible (rnd (n + 1)) (hpos _ hmem)
      obtain ⟨s, hs, hlen, hhead⟩ := ih w (acc ++ [curr])
      refine ⟨curr :: s, ?_, by simp [hlen], by simp⟩
      simp only [sentenceLoop, hl, hw, hs]
      simp

/-! ### Structure of the rhyme map (claim C2) -/

/-- The rhyme-map entries contributed by each group, in group order. -/
def pairsBlocks (groups : List (Char × List Nat)) : List (Nat × Nat) :=
  (groups.map (fun cg => pairsOf cg.2)).flatten

theorem pairsOf_map_fst : ∀ (g : List Nat), (pairsOf g).map Prod.fst = g.dropLast
  | [] => rfl
  | [_] => rfl
  | a :: b :: t => by
    have h : pairsOf (a :: b :: t) = (a, b) :: pairsOf (b :: t) := rfl
    rw [h, List.map_cons, pairsOf_map_fst (b :: t)]
    rfl

theorem pairsOf_fst_mem (g : List Nat) (p : Nat × Nat) (h : p ∈ pairsOf g) :
    p.1 ∈ g :=
  (List.of_mem_zip h).1

theorem pairsOf_snd_mem (g : List Nat) (p : Nat × Nat) (h : p ∈ pairsOf g) :
    p.2 ∈ g :=
  List.mem_of_mem_tail (List.of_mem_zip h).2

theorem pairsOf_lt : ∀ (g : List Nat), List.Chain' (· < ·) g →
    ∀ p ∈ pairsOf g, p.1 < p.2
  | [], _, p, hp => by simp [pairsOf] at hp
  | [_], _, p, hp => by simp [pairsOf] at hp
  | a :: b :: t, h, p, hp => by
    have heq : pairsOf (a :: b :: t) = (a, b) :: pairsOf (b :: t) := rfl
    rw [heq, List.mem_cons] at hp
    rw [List.chain'_cons] at h
    rcases hp with hp | hp
    · rw [hp]
      exact h.1
    · exact pairsOf_lt (b :: t) h.2 p hp

theorem pairsOf_length (g : List Nat) : (pairsOf g).length = g.length - 1 := by
  unfold pairsOf
  rw [List.length_zip _ _, List.length_tail]
  omega

theorem setKey_fresh {α : Type} (rm : List (Nat × α)) (k : Nat) (v : α)
    (h : k ∉ rm.map Prod.fst) : setKey rm k v = rm ++ [(k, v)] := by
  induction rm with
  | nil => rfl
  | cons hd rest ih =>
    obtain ⟨k', v'⟩ := hd
    simp only [List.map_cons, List.mem_cons] at h
    push_neg at h
    have hne : ¬ k' = k := fun he => h.1 he.symm
    simp only [setKey, if_neg hne]
    rw [ih h.2]
    simp

theorem foldl_setKey_pairs (ps : List (Nat × Nat)) :
    ∀ (rm : List (Nat × Nat)),
      (∀ p ∈ ps, p.1 ∉ rm.map Prod.fst) → (ps.map Prod.fst).Nodup →
      ps.foldl (fun rm p => setKey rm p.1 p.2) rm = rm ++ ps := by
  induction ps with
  | nil => intro rm _ _; simp
  | cons p rest ih =>
    intro rm hdisj hnd
    simp only [List.foldl_cons]
    rw [setKey_fresh rm p.1 p.2 (hdisj p (List.mem_cons_self _ _))]
    simp only [List.map_cons, List.nodup_cons] at hnd
    rw [ih (rm ++ [p]) ?_ hnd.2]
    · simp
    · intro q hq
      rw [List.map_append]
      simp only [List.mem_append]
      push_neg
      refine ⟨hdisj q (List.mem_cons_of_mem _ hq), ?_⟩
      simp only [List.map_cons, List.map_nil, List.mem_singleton]
      intro he
      exact hnd.1 (he ▸ List.mem_map_of_mem Prod.fst hq)

theorem dropLast_flatten_sublist (groups : List (Char × List Nat)) :
    ((groups.map (fun cg => cg.2.dropLast)).flatten).Sublist
      ((groups.map Prod.snd).flatten) := by
  induction groups with
  | nil => simp
  | cons cg rest ih =>
    simp only [List.map_cons, List.flatten_cons]
    exact List.Sublist.append (List.dropLast_sublist _) ih

theorem buildFold_eq : ∀ (groups : List (Char × List Nat)) (rm : List (Nat × Nat)),
    (rm.map Prod.fst ++ (groups.map (fun cg => cg.2.dropLast)).flatten).Nodup →
    groups.foldl (fun rm cg => (pairsOf cg.2).foldl (fun rm p => setKey rm p.1 p.2) rm) rm =
      rm ++ pairsBlocks groups := by
  intro groups
  induction groups with
  | nil => intro rm _; simp [pairsBlocks]
  | cons cg rest ih =>
    intro rm h
    simp only [List.map_cons, List.flatten_cons] at h
    rw [← List.append_assoc] at h
    have hparts := List.nodup_append.mp h
    have hparts2 := List.nodup_append.mp hparts.1
    simp only [List.foldl_cons]
    rw [foldl_setKey_pairs (pairsOf cg.2) rm ?_ ?_]
    · rw [ih (rm ++ pairsOf cg.2) ?_]
      · simp [pairsBlocks]
      · rw [List.map_append, pairsOf_map_fst]
        exact h
    · intro p hp
      intro hmem
      have : p.1 ∈ (pairsOf cg.2).map Prod.fst := List.mem_map_of_mem Prod.fst hp
      rw [pairsOf_map_fst] at this
      exact hparts2.2.2 hmem this
    · rw [pairsOf_map_fst]
      exact hparts2.2.1

theorem chain_lt_snoc (g : List Nat) (n : Nat) (h1 : List.Chain' (· < ·) g)
    (h2 : ∀ x ∈ g, x < n) : List.Chain' (· < ·) (g ++ [n]) := by
  rw [List.chain'_append]
  refine ⟨h1, List.chain'_singleton n, ?_⟩
  intro x hx y hy
  simp only [List.head?_cons, Option.mem_def, Option.some.injEq] at hy
  rw [← hy]
  exact h2 x (List.mem_of_mem_getLast? hx)

/-- Appending the next line number to one group adds exactly that number
to the multiset of all recorded line indices. -/
theorem appendToGroup_flatten_perm (groups : List (Char × List Nat)) (c : Char)
    (n : Nat) :
    (((appendToGroup groups c n).map Prod.snd).flatten).Perm
      (((groups.map Prod.snd).flatten) ++ [n]) := by
  induction groups with
  | nil => simp [appendToGroup]
  | cons cg rest ih =>
    obtain ⟨c', g⟩ := cg
    by_cases hc : c' = c
    · simp only [appendToGroup, if_pos hc, List.map_cons, List.flatten_cons]
      rw [List.append_assoc, List.append_assoc]
      exact List.Perm.append_left g (List.perm_append_comm)
    · simp only [appendToGroup, if_neg hc, List.map_cons, List.flatten_cons]
      rw [List.append_assoc]
      exact List.Perm.append_left g ih

theorem appendToGroup_chain (groups : List (Char × List Nat)) (c : Char) (n : Nat)
    (h : ∀ cg ∈ groups, List.Chain' (· < ·) cg.2 ∧ ∀ x ∈ cg.2, x < n) :
    ∀ cg ∈ appendToGroup groups c n,
      List.Chain' (· < ·) cg.2 ∧ ∀ x ∈ cg.2, x < n + 1 := by
  induction groups with
  | nil =>
    intro cg hm
    simp [appendToGroup] at hm
    rw [hm]
    exact ⟨List.chain'_singleton n, by simp⟩
  | cons hd rest ih =>
    obtain ⟨c', g⟩ := hd
    intro cg hm
    by_cases hc : c' = c
    · simp only [appendToGroup, if_pos hc, List.mem_cons] at hm
      rcases hm with hm | hm
      · obtain ⟨hch, hbd⟩ := h (c', g) (List.mem_cons_self _ _)
        rw [hm]
        refine ⟨chain_lt_snoc g n hch hbd, ?_⟩
        intro x hx
        simp only [List.mem_append, List.mem_singleton] at hx
        rcases hx with hx | hx
        · exact Nat.lt_succ_of_lt (hbd x hx)
        · omega
      · obtain ⟨hch, hbd⟩ := h cg (List.mem_cons_of_mem _ hm)
        exact ⟨hch, fun x hx => Nat.lt_succ_of_lt (hbd x hx)⟩
    · simp only [appendToGroup, if_neg hc, List.mem_cons] at hm
      rcases hm with hm | hm
      · obtain ⟨hch, hbd⟩ := h (c', g) (List.mem_cons_self _ _)
        rw [hm]
        exact ⟨hch, fun x hx => Nat.lt_succ_of_lt (hbd x hx)⟩
      · exact ih (fun x hx => h x (List.mem_cons_of_mem _ hx)) cg hm

/-- The scan invariant: every group is strictly increasing and bounded by
the current line number, and no line index is recorded twice across all
groups. -/
theorem parseLoop_groups_inv (s : List Char) :
    ∀ (n : Nat) (groups : List (Char × List Nat)) (breaks : List Nat),
      (∀ cg ∈ groups, List.Chain' (· < ·) cg.2 ∧ ∀ x ∈ cg.2, x < n) →
      ((groups.map Prod.snd).flatten).Nodup →
      (∀ cg ∈ (parseLoop s n groups breaks).2.1,
          List.Chain' (· < ·) cg.2 ∧
            ∀ x ∈ cg.2, x < (parseLoop s n groups breaks).1) ∧
        ((((parseLoop s n groups breaks).2.1).map Prod.snd).flatten).Nodup := by
  induction s with
  | nil =>
    intro n groups breaks h1 h2
    exact ⟨h1, h2⟩
  | cons ch rest ih =>
    intro n groups breaks h1 h2
    by_cases hc : ch = '/'
    · simp only [parseLoop, if_pos hc]
      exact ih n groups (insertNew breaks n) h1 h2
    · simp only [parseLoop, if_neg hc]
      have hbound : ∀ x ∈ (groups.map Prod.snd).flatten, x < n := by
        intro x hx
        rw [List.mem_flatten] at hx
        obtain ⟨l, hl, hxl⟩ := hx
        rw [List.mem_map] at hl
        obtain ⟨cg, hcg, hleq⟩ := hl
        exact (h1 cg hcg).2 x (hleq ▸ hxl)
      have hnodup : (((appendToGroup groups ch n).map Prod.snd).flatten).Nodup := by
        rw [(appendToGroup_flatten_perm groups ch n).nodup_iff]
        rw [List.nodup_append]
        refine ⟨h2, List.nodup_singleton n, ?_⟩
        intro x hx hx'
        simp only [List.mem_singleton] at hx'
        exact absurd (hbound x hx) (by omega)
      exact ih (n + 1) (appendToGroup groups ch n) breaks
        (appendToGroup_chain groups ch n h1) hnodup

theorem pairsBlocks_fst_mem (groups : List (Char × List Nat)) (p : Nat × Nat)
    (h : p ∈ pairsBlocks groups) : p.1 ∈ (groups.map Prod.snd).flatten := by
  unfold pairsBlocks at h
  rw [List.mem_flatten] at h
  obtain ⟨l, hl, hpl⟩ := h
  rw [List.mem_map] at hl
  obtain ⟨cg, hcg, hleq⟩ := hl
  rw [List.mem_flatten]
  exact ⟨cg.2, List.mem_map_of_mem Prod.snd hcg, pairsOf_fst_mem cg.2 p (hleq ▸ hpl)⟩

/-- With no line index recorded twice, the rhyme-map entries whose key
lies in a given group are exactly that group's chain pairs. -/
theorem filter_blocks : ∀ (groups : List (Char × List Nat)),
    ((groups.map Prod.snd).flatten).Nodup →
    ∀ cg ∈ groups,
      (pairsBlocks groups).filter (fun p => decide (p.1 ∈ cg.2)) = pairsOf cg.2 := by
  intro groups
  induction groups with
  | nil => intro _ cg hm; simp at hm
  | cons g0 rest ih =>
    intro hnd cg hm
    simp only [List.map_cons, List.flatten_cons] at hnd
    have hparts := List.nodup_append.mp hnd
    have hblocks : pairsBlocks (g0 :: rest) = pairsOf g0.2 ++ pairsBlocks rest := by
      simp [pairsBlocks]
    rw [hblocks, List.filter_append]
    rcases List.mem_cons.mp hm with hm | hm
    · have hown : (pairsOf g0.2).filter (fun p => decide (p.1 ∈ cg.2)) = pairsOf g0.2 := by
        rw [List.filter_eq_self]
        intro p hp
        rw [hm]
        exact decide_eq_true (pairsOf_fst_mem g0.2 p hp)
      have hrest : (pairsBlocks rest).filter (fun p => decide (p.1 ∈ cg.2)) = [] := by
        rw [List.filter_eq_nil_iff]
        intro p hp hdec
        have h1 : p.1 ∈ (rest.map Prod.snd).flatten := pairsBlocks_fst_mem rest p hp
        have h2 : p.1 ∈ g0.2 := hm ▸ of_decide_eq_true hdec
        exact hparts.2.2 h2 h1
      rw [hown, hrest, List.append_nil, hm]
    · have hsub : ∀ x ∈ cg.2, x ∈ (rest.map Prod.snd).flatten := by
        intro x hx
        rw [List.mem_flatten]
        exact ⟨cg.2, List.mem_map_of_mem Prod.snd hm, hx⟩
      have hown : (pairsOf g0.2).filter (fun p => decide (p.1 ∈ cg.2)) = [] := by
        rw [List.filter_eq_nil_iff]
        intro p hp hdec
        exact hparts.2.2 (pairsOf_fst_mem g0.2 p hp) (hsub p.1 (of_decide_eq_true hdec))
      rw [hown, ih hparts.2.1 cg hm, List.nil_append]

end MarkovPoems

namespace MarkovPoems

/-! ## Claim theorems -/

/-- Claim C1: for every rhyme-scheme string s, parse_rhyme_scheme returns a
line count equal to the number of non-slash characters of s; on the empty
string it returns line count 0, an empty rhyme map and an empty break set;
the function is total, so no character causes an error. -/
theorem claim_c1 :
    (∀ s : Str, (parse_rhyme_scheme s).1 = (s.filter (fun c => c ≠ '/')).length) ∧
      parse_rhyme_scheme [] = (0, [], []) := by
  constructor
  · intro s
    show (parseLoop s 0 [] []).1 = _
    simpa using parseLoop_lineCount s 0 [] []
  · rfl

/-- Claim C2: for every rhyme-scheme string, the rhyme map is exactly the
concatenation, over the scanned label groups, of the consecutive pairs of
each group's strictly increasing occurrence indices: a label occurring at
indices i1 < i2 < ... < ik contributes exactly the k - 1 chain entries
i1 to i2, ..., i(k-1) to ik (so a label occurring once contributes none,
and there is no fan-out, since the keys are duplicate-free, and no cycle
or self-map, since every key is smaller than its value); all keys and
values are below the line count. -/
theorem claim_c2 (s : Str) :
    (parse_rhyme_scheme s).2.1 = pairsBlocks (parseGroups s) ∧
      ((parse_rhyme_scheme s).2.1.map Prod.fst).Nodup ∧
      (∀ p ∈ (parse_rhyme_scheme s).2.1, p.1 < p.2 ∧ p.2 < (parse_rhyme_scheme s).1) ∧
      (∀ cg ∈ parseGroups s,
        List.Chain' (· < ·) cg.2 ∧ (∀ x ∈ cg.2, x < (parse_rhyme_scheme s).1) ∧
          (pairsOf cg.2).length = cg.2.length - 1) ∧
      (∀ cg ∈ parseGroups s,
        (parse_rhyme_scheme s).2.1.filter (fun p => decide (p.1 ∈ cg.2)) =
          pairsOf cg.2) := by
  have hinv := parseLoop_groups_inv s 0 [] [] (by simp) (by simp)
  have hndDL : (((parseGroups s).map (fun cg => cg.2.dropLast)).flatten).Nodup :=
    hinv.2.sublist (dropLast_flatten_sublist _)
  have h1 : (parse_rhyme_scheme s).2.1 = pairsBlocks (parseGroups s) := by
    show buildRhymeMap (parseGroups s) = pairsBlocks (parseGroups s)
    unfold buildRhymeMap
    have hb := buildFold_eq (parseGroups s) [] (by simpa using hndDL)
    simpa using hb
  refine ⟨h1, ?_, ?_, ?_, ?_⟩
  · have hkeys : (parse_rhyme_scheme s).2.1.map Prod.fst =
        ((parseGroups s).map (fun cg => cg.2.dropLast)).flatten := by
      rw [h1]
      unfold pairsBlocks
      rw [List.map_flatten, List.map_map]
      have hfun : (List.map Prod.fst ∘ fun cg : Char × List Nat => pairsOf cg.2) =
          fun cg : Char × List Nat => cg.2.dropLast :=
        funext fun cg => pairsOf_map_fst cg.2
      rw [hfun]
    rw [hkeys]
    exact hndDL
  · intro p hp
    rw [h1] at hp
    unfold pairsBlocks at hp
    rw [List.mem_flatten] at hp
    obtain ⟨l, hl, hpl⟩ := hp
    rw [List.mem_map] at hl
    obtain ⟨cg, hcg, hleq⟩ := hl
    rw [← hleq] at hpl
    exact ⟨pairsOf_lt cg.2 (hinv.1 cg hcg).1 p hpl,
      (hinv.1 cg hcg).2 p.2 (pairsOf_snd_mem cg.2 p hpl)⟩
  · intro cg hcg
    exact ⟨(hinv.1 cg hcg).1, (hinv.1 cg hcg).2, pairsOf_length cg.2⟩
  · intro cg hcg
    rw [h1]
    exact filter_blocks (parseGroups s) hinv.2 cg hcg

/-- Witness for claim C2: in scheme "aaba" the label a occurs at lines
0, 1 and 3; the entry (0, 1) is in the rhyme map, its key is smaller
than its value, and the value is below the line count 4. -/
theorem claim_c2_witness :
    ((0, 1) : Nat × Nat).1 < (0, 1).2 ∧
      ((0, 1) : Nat × Nat).2 < (parse_rhyme_scheme ("aaba".toList)).1 :=
  (claim_c2 ("aaba".toList)).2.2.1 (0, 1) (by decide)

/-- Claim C3, counterexample: constructing PoemSettings from scheme "ab"
(two lines) with the three-element explicit length sequence [1, 2, 3] does
not report any error; the mismatched sequence is accepted verbatim. -/
theorem claim_c3_counterexample :
    PoemSettings.from_rhyme_scheme ("ab".toList) (.inr [1, 2, 3]) =
        ⟨[1, 2, 3], [], []⟩ ∧
      (parse_rhyme_scheme ("ab".toList)).1 = 2 ∧ (3 : Nat) ≠ 2 := by
  refine ⟨rfl, rfl, by decide⟩

/-- Claim C3, amended: PoemSettings.from_rhyme_scheme performs no length
validation: an explicit per-line length sequence is stored exactly as
given, whatever its length, and an integer is expanded to one copy per
parsed line. -/
theorem claim_c3_amended : ∀ (scheme : Str) (lens : List Nat) (k : Nat),
    (PoemSettings.from_rhyme_scheme scheme (.inr lens)).line_lengths = lens ∧
      (PoemSettings.from_rhyme_scheme scheme (.inl k)).line_lengths =
        List.replicate (parse_rhyme_scheme scheme).1 k := by
  intro scheme lens k
  exact ⟨rfl, rfl⟩

/-- Claim C4: for every model built by generate_chain whose transition
table has at least one key, every end word and every length, the sentence
generator returns (without any crash, the missing-predecessor fallback
included) exactly L tokens whose last element is the end word. -/
theorem claim_c4 (texts : List Str) (rnd : Nat → Nat) (endWord : Str) (L : Nat)
    (hne : generate_chain texts ≠ []) :
    ∃ out, generate_sentence (generate_chain texts) rnd endWord L = some out ∧
      out.length = L ∧ (0 < L → out.getLast? = some endWord) := by
  obtain ⟨s, hs, hlen, hhead⟩ :=
    sentenceLoop_spec (generate_chain texts) hne (generate_chain_pos texts) rnd L endWord []
  refine ⟨s.reverse, ?_, by simp [hlen], ?_⟩
  · simpa [generate_sentence] using hs
  · intro hL
    rw [List.getLast?_reverse]
    exact hhead hL

/-- Witness for claim C4: the model of the single text "a b" has table
(b maps to (a, 1)); a three-word sentence ending in b is generated. -/
theorem claim_c4_witness :
    ∃ out, generate_sentence (generate_chain [("a b").toList]) (fun _ => 0)
        ("b".toList) 3 = some out ∧
      out.length = 3 ∧ (0 < 3 → out.getLast? = some ("b".toList)) :=
  claim_c4 [("a b").toList] (fun _ => 0) ("b".toList) 3 (by decide)

/-- Claim C5: the model built from the single line "How are you are you
good" has exactly the transition table are to (how 1, you 1), you to
(are 2), good to (you 1), all lower-cased and reversed relative to reading
order, and line endings equal to the single word good. -/
theorem claim_c5 :
    generate_chain [("How are you are you good").toList] =
        [("are".toList, [("how".toList, 1), ("you".toList, 1)]),
         ("you".toList, [("are".toList, 2)]),
         ("good".toList, [("you".toList, 1)])] ∧
      collect_endings [("How are you are you good").toList] =
        some ["good".toList] := by
  exact ⟨rfl, rfl⟩

/-- Claim C6: clean_for_rhyme maps warm-apostrophe-d to warmed,
know-apostrophe-st to know, o-apostrophe-er to over, and every character
of any output is a plain ASCII letter. -/
theorem claim_c6 :
    clean_for_rhyme ['w', 'a', 'r', 'm', apos, 'd'] = "warmed".toList ∧
      clean_for_rhyme ['k', 'n', 'o', 'w', apos, 's', 't'] = "know".toList ∧
      clean_for_rhyme ['o', apos, 'e', 'r'] = "over".toList ∧
      ∀ (w : Str) (c : Char), c ∈ clean_for_rhyme w → c ∈ asciiLetters := by
  refine ⟨rfl, rfl, rfl, ?_⟩
  intro w c hc
  unfold clean_for_rhyme at hc
  rw [List.mem_filter] at hc
  exact of_decide_eq_true hc.2

/-- Claim C7, counterexample: with a rhyme service that fails, get_rhyme
evaluates to that error — the failure is not treated as an empty result
(which would be ok none), because the code has no try/except around the
request. -/
theorem claim_c7_counterexample :
    get_rhyme (fun _ _ => (Except.error () : Except Unit (List Str))) [] [] [] =
        .error () ∧
      (Except.error () : Except Unit (Option Str)) ≠ .ok none :=
  ⟨rfl, fun h => Except.noConfusion h⟩

/-- Claim C7, amended: a failure of the rhyme service propagates out of
get_rhyme unchanged; only a successful reply whose candidate lists are
empty (or exhausted) degrades to no candidate. -/
theorem claim_c7_amended {E : Type} (svc : Rel → Str → Except E (List Str))
    (chain : Chain) (used : List Str) (word : Str) (e : E) :
    (svc .rhy (clean_for_rhyme word) = .error e →
        get_rhyme svc chain used word = .error e) ∧
      (svc .rhy (clean_for_rhyme word) = .ok [] →
        svc .nry (clean_for_rhyme word) = .ok [] →
        get_rhyme svc chain used word = .ok none) := by
  constructor
  · intro h
    simp [get_rhyme, getRhymeLoop, h]
  · intro h1 h2
    simp [get_rhyme, getRhymeLoop, h1, h2]

/-- Witness for claim C7 amended: a concrete failing service propagates
its error, and a concrete empty-result service yields no candidate. -/
theorem claim_c7_amended_witness :
    get_rhyme (fun _ _ => (Except.error 7 : Except Nat (List Str))) [] [] [] =
        .error 7 ∧
      get_rhyme (fun _ _ => (Except.ok [] : Except Nat (List Str))) [] [] [] =
        .ok none :=
  ⟨(claim_c7_amended (fun _ _ => (Except.error 7 : Except Nat (List Str)))
      [] [] [] 7).1 rfl,
    (claim_c7_amended (fun _ _ => (Except.ok [] : Except Nat (List Str)))
      [] [] [] 7).2 rfl rfl⟩

/-- Claim C9: when both service queries succeed, get_rhyme returns exactly
the first candidate, scanning the strict-rhyme list before the near-rhyme
list in service order, that is a key of the transition table and not
already used — and no candidate yields none; a stored none makes the
dependent line fall back to a random corpus ending. -/
theorem claim_c9 {E : Type} (svc : Rel → Str → Except E (List Str)) (chain : Chain)
    (used : List Str) (word : Str) (r1 r2 : List Str)
    (h1 : svc .rhy (clean_for_rhyme word) = .ok r1)
    (h2 : svc .nry (clean_for_rhyme word) = .ok r2) :
    get_rhyme svc chain used word = .ok ((r1 ++ r2).find? (rhymeOk chain used)) ∧
      ∀ (rhymes : List (Nat × Option Str)) (i : Nat) (endings : List Str) (r : Nat),
        natLookup rhymes i = some none →
        lineEnd rhymes i endings r = pyChoice endings r := by
  constructor
  · rw [List.find?_append]
    cases hf1 : r1.find? (rhymeOk chain used) with
    | some c => simp [get_rhyme, getRhymeLoop, h1, hf1, Option.or]
    | none =>
      cases hf2 : r2.find? (rhymeOk chain used) with
      | some c => simp [get_rhyme, getRhymeLoop, h1, h2, hf1, hf2, Option.or]
      | none => simp [get_rhyme, getRhymeLoop, h1, h2, hf1, hf2, Option.or]
  · intro rhymes i endings r h
    simp [lineEnd, h]

/-- Witness for claim C9: a service returning candidate c for the strict
query finds it, since c is a key of the table and unused; and a stored
none falls back to the random ending choice. -/
theorem claim_c9_witness :
    get_rhyme
        (fun rel w =>
          if rel = Rel.rhy ∧ w = ['a'] then (Except.ok [['c']] : Except Unit (List Str))
          else .ok [])
        [(['c'], [(['a'], 1)])] [] ['a'] = .ok (some ['c']) ∧
      lineEnd [(0, none)] 0 [['a']] 0 = pyChoice [['a']] 0 :=
  ⟨(claim_c9
      (fun rel w =>
        if rel = Rel.rhy ∧ w = ['a'] then (Except.ok [['c']] : Except Unit (List Str))
        else .ok [])
      [(['c'], [(['a'], 1)])] [] ['a'] [['c']] [] (by rfl) (by rfl)).1,
    (claim_c9
      (fun rel w =>
        if rel = Rel.rhy ∧ w = ['a'] then (Except.ok [['c']] : Except Unit (List Str))
        else .ok [])
      [(['c'], [(['a'], 1)])] [] ['a'] [['c']] [] (by rfl) (by rfl)).2
      [(0, none)] 0 [['a']] 0 rfl⟩

end MarkovPoems

namespace MarkovPoems

/-! ## Claim C8: session state across poems -/

/-- The used_rhymes list only ever grows during a poem: the loop appends
one cleaned ending per line and never clears the list, so whatever the
field holds when generate_poem is called is still a prefix of it at the
end. -/
theorem poemLoop_used_mono {E : Type} (chain : Chain) (endings : List Str)
    (breaks : List Nat) (rhymeMap : List (Nat × Nat)) (endRnd : Nat → Nat)
    (sentRnd : Nat → Nat → Nat) (svc : Rel → Str → Except E (List Str)) :
    ∀ (lens : List Nat) (i : Nat) (rhymes : List (Nat × Option Str))
      (used usedF : List Str) (items : List PoemItem),
      poemLoop chain endings breaks rhymeMap endRnd sentRnd svc i lens rhymes used =
        .ok (items, usedF) →
      used <+: usedF := by
  intro lens
  induction lens with
  | nil =>
    intro i rhymes used usedF items h
    simp [poemLoop] at h
    rw [h.2]
  | cons len rest ih =>
    intro i rhymes used usedF items h
    simp only [poemLoop] at h
    cases hEnd : lineEnd rhymes i endings (endRnd i) with
    | none => simp only [hEnd] at h; simp at h
    | some endWord =>
      simp only [hEnd] at h
      cases hSent : generate_sentence chain (sentRnd i) endWord len with
      | none => simp only [hSent] at h; simp at h
      | some line =>
        simp only [hSent] at h
        cases hNat : natLookup rhymeMap i with
        | none =>
          simp only [hNat] at h
          cases hRec : poemLoop chain endings breaks rhymeMap endRnd sentRnd svc
              (i + 1) rest rhymes (used ++ [clean_for_rhyme endWord]) with
          | error e => simp only [hRec] at h; simp at h
          | ok p =>
            obtain ⟨items', usedF'⟩ := p
            simp only [hRec] at h
            simp at h
            have hpre : used ++ [clean_for_rhyme endWord] <+: usedF' :=
              ih (i + 1) rhymes (used ++ [clean_for_rhyme endWord]) usedF' items' hRec
            rw [← h.2]
            exact (List.prefix_append used [clean_for_rhyme endWord]).trans hpre
        | some j =>
          simp only [hNat] at h
          cases hLast : line.getLast? with
          | none => simp only [hLast] at h; simp at h
          | some lastWord =>
            simp only [hLast] at h
            cases hGr : get_rhyme svc chain (used ++ [clean_for_rhyme endWord]) lastWord with
            | error e => simp only [hGr] at h; simp at h
            | ok r =>
              simp only [hGr] at h
              cases hRec : poemLoop chain endings breaks rhymeMap endRnd sentRnd svc
                  (i + 1) rest (setKey rhymes j r) (used ++ [clean_for_rhyme endWord]) with
              | error e => simp only [hRec] at h; simp at h
              | ok p =>
                obtain ⟨items', usedF'⟩ := p
                simp only [hRec] at h
                simp at h
                have hpre : used ++ [clean_for_rhyme endWord] <+: usedF' :=
                  ih (i + 1) (setKey rhymes j r) (used ++ [clean_for_rhyme endWord])
                    usedF' items' hRec
                rw [← h.2]
                exact (List.prefix_append used [clean_for_rhyme endWord]).trans hpre

/-- Claim C8, amended: the pending-rhyme mapping is a local variable and
so starts empty on every invocation of generate_poem, but the used-rhymes
list is an instance field that is set to empty only at construction and
never cleared: its value at call time persists as a prefix of its value
after the poem, so used endings carry over between poems of one composer. -/
theorem claim_c8_amended {E : Type} (chain : Chain) (endings : List Str)
    (settings : PoemSettings) (endRnd : Nat → Nat) (sentRnd : Nat → Nat → Nat)
    (svc : Rel → Str → Except E (List Str)) (used usedF : List Str)
    (items : List PoemItem)
    (h : generate_poem chain endings settings endRnd sentRnd svc used =
      .ok (items, usedF)) :
    used <+: usedF :=
  poemLoop_used_mono chain endings settings.break_lines settings.rhyme_map endRnd
    sentRnd svc settings.line_lengths 0 [] used usedF items h

/-- Splitting the scan of a scheme at any point: scanning s ++ t continues
the scan of s with t. -/
theorem parseLoop_append (s t : List Char) : ∀ (n : Nat) (groups : List (Char × List Nat))
    (breaks : List Nat),
    parseLoop (s ++ t) n groups breaks =
      parseLoop t (parseLoop s n groups breaks).1 (parseLoop s n groups breaks).2.1
        (parseLoop s n groups breaks).2.2 := by
  induction s with
  | nil => intro n groups breaks; simp [parseLoop]
  | cons c rest ih =>
    intro n groups breaks
    by_cases hc : c = '/'
    · simp only [List.cons_append, parseLoop, if_pos hc]
      exact ih _ _ _
    · simp only [List.cons_append, parseLoop, if_neg hc]
      exact ih _ _ _

theorem mem_insertNew_self (l : List Nat) (x : Nat) : x ∈ insertNew l x := by
  unfold insertNew
  by_cases hx : x ∈ l
  · simp [hx]
  · simp [hx]

theorem insertNew_of_mem (l : List Nat) (x : Nat) (h : x ∈ l) : insertNew l x = l := by
  simp [insertNew, h]

theorem insertNew_idem (l : List Nat) (x : Nat) :
    insertNew (insertNew l x) x = insertNew l x :=
  insertNew_of_mem _ _ (mem_insertNew_self l x)

/-- Scanning only slashes leaves the line number and the groups unchanged
and at most records the current line number as a break. -/
theorem parseLoop_slashes (k : Nat) (n : Nat) (groups : List (Char × List Nat))
    (breaks : List Nat) :
    parseLoop (List.replicate k '/') n groups breaks =
      (n, groups, if k = 0 then breaks else insertNew breaks n) := by
  induction k generalizing breaks with
  | zero => simp [parseLoop]
  | succ k ih =>
    rw [List.replicate_succ]
    simp only [parseLoop, if_pos rfl]
    rw [ih]
    by_cases hk : k = 0
    · simp [hk]
    · simp [hk, insertNew_idem]

theorem mem_insertNew_iff (l : List Nat) (x j : Nat) (h : j ≠ x) :
    j ∈ insertNew l x ↔ j ∈ l := by
  unfold insertNew
  by_cases hx : x ∈ l
  · simp [hx]
  · simp [hx, h]

/-- The poem loop reads the break set only through membership of the line
indices it visits. -/
theorem poemLoop_breaks_congr {E : Type} (chain : Chain) (endings : List Str)
    (br1 br2 : List Nat) (rhymeMap : List (Nat × Nat)) (endRnd : Nat → Nat)
    (sentRnd : Nat → Nat → Nat) (svc : Rel → Str → Except E (List Str)) :
    ∀ (lens : List Nat) (i : Nat),
      (∀ j, i ≤ j → j < i + lens.length → (j ∈ br1 ↔ j ∈ br2)) →
      ∀ (rhymes : List (Nat × Option Str)) (used : List Str),
        poemLoop chain endings br1 rhymeMap endRnd sentRnd svc i lens rhymes used =
          poemLoop chain endings br2 rhymeMap endRnd sentRnd svc i lens rhymes used := by
  intro lens
  induction lens with
  | nil => intro i _ rhymes used; simp [poemLoop]
  | cons len rest ih =>
    intro i H rhymes used
    have hmem : (i ∈ br1) = (i ∈ br2) :=
      propext (H i (Nat.le_refl i) (by simp))
    have ihh : ∀ (rhymes : List (Nat × Option Str)) (used : List Str),
        poemLoop chain endings br1 rhymeMap endRnd sentRnd svc (i + 1) rest rhymes used =
          poemLoop chain endings br2 rhymeMap endRnd sentRnd svc (i + 1) rest rhymes used :=
      fun rhymes used =>
        ih (i + 1) (fun j hj1 hj2 => H j (by omega) (by simp at hj2 ⊢; omega)) rhymes used
    simp only [poemLoop, hmem, ihh]

/-- Two consecutive poem items are never both stanza-break markers. -/
def notBothBlank (a b : PoemItem) : Prop := ¬(a = .blank ∧ b = .blank)

/-- The item block of one loop iteration keeps the no-two-adjacent-blanks
chain: it is a line, possibly preceded by one blank. -/
theorem chain_block (pre : List PoemItem)
    (hpre : pre = [] ∨ pre = [PoemItem.blank]) (line : List Str)
    (items' : List PoemItem) (hch : List.Chain' notBothBlank items') :
    List.Chain' notBothBlank (pre ++ PoemItem.line line :: items') := by
  have hcons : List.Chain' notBothBlank (PoemItem.line line :: items') := by
    rw [List.chain'_cons']
    exact ⟨fun b _ hcon => PoemItem.noConfusion hcon.1, hch⟩
  rcases hpre with h | h
  · rw [h, List.nil_append]
    exact hcons
  · rw [h, List.singleton_append, List.chain'_cons]
    exact ⟨fun hcon => PoemItem.noConfusion hcon.2, hcons⟩

/-- The item block of one loop iteration ends with a line item. -/
theorem last_block (pre : List PoemItem) (line : List Str)
    (items' : List PoemItem) (hlast : items'.getLast? ≠ some PoemItem.blank) :
    (pre ++ PoemItem.line line :: items').getLast? ≠ some PoemItem.blank := by
  rw [List.getLast?_append_cons]
  cases items' with
  | nil => simp
  | cons a l =>
    rw [List.getLast?_cons_cons]
    exact hlast

/-- Every successful poem run emits at most one blank marker before each
line and always ends with a line item: each loop iteration contributes
either one line or one blank followed by one line. -/
theorem poemLoop_no_double_blank {E : Type} (chain : Chain) (endings : List Str)
    (breaks : List Nat) (rhymeMap : List (Nat × Nat)) (endRnd : Nat → Nat)
    (sentRnd : Nat → Nat → Nat) (svc : Rel → Str → Except E (List Str)) :
    ∀ (lens : List Nat) (i : Nat) (rhymes : List (Nat × Option Str))
      (used usedF : List Str) (items : List PoemItem),
      poemLoop chain endings breaks rhymeMap endRnd sentRnd svc i lens rhymes used =
        .ok (items, usedF) →
      List.Chain' notBothBlank items ∧ items.getLast? ≠ some .blank := by
  intro lens
  induction lens with
  | nil =>
    intro i rhymes used usedF items h
    simp [poemLoop] at h
    obtain ⟨h1, h2⟩ := h
    subst h1
    simp
  | cons len rest ih =>
    intro i rhymes used usedF items h
    simp only [poemLoop] at h
    have hpre : (if i ∈ breaks then [PoemItem.blank] else []) = [] ∨
        (if i ∈ breaks then [PoemItem.blank] else []) = [PoemItem.blank] := by
      by_cases hbr : i ∈ breaks <;> simp [hbr]
    cases hEnd : lineEnd rhymes i endings (endRnd i) with
    | none => simp only [hEnd] at h; simp at h
    | some endWord =>
      simp only [hEnd] at h
      cases hSent : generate_sentence chain (sentRnd i) endWord len with
      | none => simp only [hSent] at h; simp at h
      | some line =>
        simp only [hSent] at h
        cases hNat : natLookup rhymeMap i with
        | none =>
          simp only [hNat] at h
          cases hRec : poemLoop chain endings breaks rhymeMap endRnd sentRnd svc
              (i + 1) rest rhymes (used ++ [clean_for_rhyme endWord]) with
          | error e => simp only [hRec] at h; simp at h
          | ok p =>
            obtain ⟨items', usedF'⟩ := p
            simp only [hRec] at h
            simp at h
            obtain ⟨hitems, husedF⟩ := h
            obtain ⟨hch, hlast⟩ := ih (i + 1) rhymes (used ++ [clean_for_rhyme endWord])
              usedF' items' hRec
            rw [← hitems]
            exact ⟨chain_block _ hpre line items' hch, last_block _ line items' hlast⟩
        | some j =>
          simp only [hNat] at h
          cases hLast : line.getLast? with
          | none => simp only [hLast] at h; simp at h
          | some lastWord =>
            simp only [hLast] at h
            cases hGr : get_rhyme svc chain (used ++ [clean_for_rhyme endWord]) lastWord with
            | error e => simp only [hGr] at h; simp at h
            | ok r =>
              simp only [hGr] at h
              cases hRec : poemLoop chain endings breaks rhymeMap endRnd sentRnd svc
                  (i + 1) rest (setKey rhymes j r) (used ++ [clean_for_rhyme endWord]) with
              | error e => simp only [hRec] at h; simp at h
              | ok p =>
                obtain ⟨items', usedF'⟩ := p
                simp only [hRec] at h
                simp at h
                obtain ⟨hitems, husedF⟩ := h
                obtain ⟨hch, hlast⟩ := ih (i + 1) (setKey rhymes j r)
                  (used ++ [clean_for_rhyme endWord]) usedF' items' hRec
                rw [← hitems]
                exact ⟨chain_block _ hpre line items' hch, last_block _ line items' hlast⟩

/-- A tiny concrete model for the C8 scenario: corpus "b a" newline "c a",
rhyme scheme aa with one word per line, a deterministic random oracle, and
a rhyme service that offers candidate c for the word a. -/
def exChain : Chain := generate_chain [("b a\nc a").toList]

/-- The corpus line endings of the C8 scenario. -/
def exEndings : List Str := (collect_endings [("b a\nc a").toList]).getD []

/-- The rhyme service of the C8 scenario. -/
def exSvc : Rel → Str → Except Unit (List Str) :=
  fun rel w => if rel = Rel.rhy ∧ w = ['a'] then .ok [['c']] else .ok []

/-- Scheme aa, every line one word long. -/
def exSettings : PoemSettings := PoemSettings.from_rhyme_scheme ("aa".toList) (.inl 1)

/-- Claim C8, counterexample: a first poem on a fresh composer ends with
used_rhymes [a, c]; a second invocation of generate_poem on the same
composer starts from that persisted list (not from an empty one) and
produces a different poem — the candidate c is rejected as already used,
so the second line falls back to the random ending a instead of rhyming
with c.  The used-rhyme state is therefore not reset per poem. -/
theorem claim_c8_counterexample :
    generate_poem exChain exEndings exSettings (fun _ => 0) (fun _ _ => 0) exSvc [] =
        .ok ([.line [['a']], .line [['c']]], [['a'], ['c']]) ∧
      generate_poem exChain exEndings exSettings (fun _ => 0) (fun _ _ => 0) exSvc
          [['a'], ['c']] =
        .ok ([.line [['a']], .line [['a']]], [['a'], ['c'], ['a'], ['a']]) ∧
      ([PoemItem.line [['a']], .line [['c']]] : List PoemItem) ≠
        [PoemItem.line [['a']], .line [['a']]] :=
  ⟨rfl, rfl, by decide⟩

/-- Witness for claim C8 amended: in the concrete two-poem scenario the
persisted list [a, c] is a prefix of the final list. -/
theorem claim_c8_amended_witness :
    ([['a'], ['c']] : List Str) <+: [['a'], ['c'], ['a'], ['a']] :=
  claim_c8_amended exChain exEndings exSettings (fun _ => 0) (fun _ _ => 0) exSvc
    [['a'], ['c']] [['a'], ['c'], ['a'], ['a']]
    [.line [['a']], .line [['a']]] rfl

/-- Claim C10: slashes at the very end of the scheme leave the generated
poem unchanged (the break index they record equals the line count, which
the line loop never reaches), and in every successful run no poem line is
preceded by more than one blank marker — no two adjacent items are both
blank, even when the scheme has consecutive slashes. -/
theorem claim_c10 {E : Type} (s : Str) (k L : Nat) (chain : Chain)
    (endings : List Str) (endRnd : Nat → Nat) (sentRnd : Nat → Nat → Nat)
    (svc : Rel → Str → Except E (List Str)) (used : List Str) :
    generate_poem chain endings
        (PoemSettings.from_rhyme_scheme (s ++ List.replicate k '/') (.inl L))
        endRnd sentRnd svc used =
      generate_poem chain endings (PoemSettings.from_rhyme_scheme s (.inl L))
        endRnd sentRnd svc used ∧
    ∀ (items : List PoemItem) (usedF : List Str),
      generate_poem chain endings (PoemSettings.from_rhyme_scheme s (.inl L))
          endRnd sentRnd svc used = .ok (items, usedF) →
      List.Chain' notBothBlank items := by
  constructor
  · have hp : parseLoop (s ++ List.replicate k '/') 0 [] [] =
        ((parseLoop s 0 [] []).1, (parseLoop s 0 [] []).2.1,
          if k = 0 then (parseLoop s 0 [] []).2.2
          else insertNew (parseLoop s 0 [] []).2.2 (parseLoop s 0 [] []).1) := by
      rw [parseLoop_append, parseLoop_slashes]
    simp only [generate_poem, PoemSettings.from_rhyme_scheme, parse_rhyme_scheme, hp]
    by_cases hk : k = 0
    · simp [hk]
    · simp only [if_neg hk]
      apply poemLoop_breaks_congr
      intro j hj1 hj2
      rw [List.length_replicate] at hj2
      exact mem_insertNew_iff _ _ _ (by omega)
  · intro items usedF h
    exact (poemLoop_no_double_blank chain endings _ _ endRnd sentRnd svc _ 0 [] used
      usedF items h).1

/-- Witness for claim C10: with the concrete model, scheme "a/" generates
the same poem as scheme "a", and that poem's items contain no adjacent
blank markers. -/
theorem claim_c10_witness :
    generate_poem exChain exEndings
        (PoemSettings.from_rhyme_scheme ("a".toList ++ List.replicate 1 '/') (.inl 1))
        (fun _ => 0) (fun _ _ => 0) exSvc [] =
      generate_poem exChain exEndings
        (PoemSettings.from_rhyme_scheme ("a".toList) (.inl 1))
        (fun _ => 0) (fun _ _ => 0) exSvc [] ∧
    List.Chain' notBothBlank [PoemItem.line [['a']]] :=
  ⟨(claim_c10 ("a".toList) 1 1 exChain exEndings (fun _ => 0) (fun _ _ => 0)
      exSvc []).1,
    (claim_c10 ("a".toList) 1 1 exChain exEndings (fun _ => 0) (fun _ _ => 0)
      exSvc []).2 [PoemItem.line [['a']]] [['a']] rfl⟩

end MarkovPoems
